import Mathlib

/-!
# Verification of `ms3-prep.py`

A shallow embedding of the MS3 prep tool: Python strings become `List Char`,
each document becomes a `List (List Char)` of lines, and the global
`__files_missing_abstracts__` accumulator becomes an explicit second component
of `test_abstract`'s result (the list of file names appended during the call,
in order).  The directory walk of `process` is modelled over an explicit
file-system tree together with the list of `(dirpath, filenames)` pairs that
`os.walk('.')` yields for it.
-/

/-! ## Python string primitives over `List Char` -/

/-- The ASCII whitespace characters removed by Python's `str.strip()`. -/
def pyIsSpace (c : Char) : Bool :=
  c == ' ' || c == '\t' || c == '\n' || c == '\r' || c == '\x0B' || c == '\x0C'

/-- Python `s.strip()`: drop whitespace from both ends. -/
def pyStrip (l : List Char) : List Char :=
  ((l.dropWhile pyIsSpace).reverse.dropWhile pyIsSpace).reverse

/-- Python `s.startswith(pat)`. -/
def pyStartswith : List Char → List Char → Bool
  | [], _ => true
  | _ :: _, [] => false
  | p :: ps, c :: cs => p == c && pyStartswith ps cs

/-- Python `pat in s`: `pat` occurs as a contiguous substring of `s`. -/
def pyContains (pat : List Char) : List Char → Bool
  | [] => pyStartswith pat []
  | c :: cs => pyStartswith pat (c :: cs) || pyContains pat cs

/-- Python `s.endswith(pat)`. -/
def pyEndswith (pat s : List Char) : Bool :=
  pyStartswith pat.reverse s.reverse

/-- Python `s.startswith((pat1, pat2, ...))`: any of the patterns matches. -/
def pyStartswithAny (pats : List (List Char)) (s : List Char) : Bool :=
  pats.any (fun p => pyStartswith p s)

/-- Python `s.replace(p :: ps, rep)` for a nonempty pattern: replace each
non-overlapping occurrence, scanning left to right. -/
def pyReplace (p : Char) (ps rep : List Char) : List Char → List Char
  | [] => []
  | c :: cs =>
    if pyStartswith (p :: ps) (c :: cs) then
      rep ++ pyReplace p ps rep (cs.drop ps.length)
    else
      c :: pyReplace p ps rep cs
  termination_by s => s.length
  decreasing_by
  · simp only [List.length_cons, List.length_drop]
    omega
  · simp only [List.length_cons]
    omega

/-- Python `s.replace(pat, rep)`.  The tool only ever calls `replace` with a
nonempty pattern, so the empty-pattern case (where Python would interleave
`rep` everywhere) is returned unchanged. -/
def pyReplaceAll (pat rep s : List Char) : List Char :=
  match pat with
  | [] => s
  | p :: ps => pyReplace p ps rep s

/-! ## Module constants of `ms3-prep.py` -/

def abstractTag : List Char := "[role=\"_abstract\"]".toList

def resourceTag : List Char := "[role=\"_additional-resources\"]".toList

/-- The tuple of prefixes in `test_abstract` that mark a line as preamble. -/
def preambleMarks : List (List Char) :=
  ["#", "/", "[", "=", "ifdef", "ifndef", "assembly_", "toc", "include", ":"].map String.toList

/-- The tuple of prefixes at which `test_abstract` gives up and records the
file as missing an abstract. -/
def stopMarks : List (List Char) :=
  ["|", "*", "include", "."].map String.toList

/-- The preamble test of `test_abstract`: the stripped line is empty or starts
with one of the common prefixes. -/
def isPreamble (l : List Char) : Bool :=
  pyStrip l == [] || pyStartswithAny preambleMarks (pyStrip l)

/-- The give-up test of `test_abstract` on a non-preamble line. -/
def isStop (l : List Char) : Bool :=
  pyStartswithAny stopMarks (pyStrip l)

/-- `any(__abstract_tag__ in line for line in lines)`. -/
def hasAbstract (lines : List (List Char)) : Bool :=
  lines.any (fun l => pyContains abstractTag l)

/-! ## `test_abstract` -/

/-- The scan loop of `test_abstract`, carrying the `has_abstract` and
`abstract_search_complete` booleans.  Returns the processed lines together
with the file names appended to `__files_missing_abstracts__`. -/
def taLoop (noop : Bool) (fileName : List Char) :
    Bool → Bool → List (List Char) → List (List Char) × List (List Char)
  | _, _, [] => ([], [])
  | hasAbs, done, l :: rest =>
    if isPreamble l then
      let r := taLoop noop fileName hasAbs done rest
      (l :: r.1, r.2)
    else if !done && isStop l then
      let r := taLoop noop fileName hasAbs true rest
      (l :: r.1, fileName :: r.2)
    else if !done then
      if !hasAbs && !noop then
        let r := taLoop noop fileName true true rest
        ((abstractTag ++ ['\n']) :: l :: r.1, r.2)
      else
        let r := taLoop noop fileName hasAbs done rest
        (l :: r.1, r.2)
    else
      let r := taLoop noop fileName hasAbs done rest
      (l :: r.1, r.2)

/-- `test_abstract(lines, noop, file_name)`: the returned line list, paired
with the file names recorded as missing an abstract during the call. -/
def test_abstract (lines : List (List Char)) (noop : Bool) (fileName : List Char) :
    List (List Char) × List (List Char) :=
  if hasAbstract lines then (lines, []) else taLoop noop fileName false false lines

/-! ## `test_additional_resources` -/

/-- The heading test of `test_additional_resources`: the stripped line starts
with `.Additional resources`, or the raw line starts with
`== Additional resources`. -/
def isResHeading (l : List Char) : Bool :=
  pyStartswith (String.toList ".Additional resources") (pyStrip l) ||
  pyStartswith (String.toList "== Additional resources") l

/-- The loop of `test_additional_resources`.  `i` is `line_no` and `prev` is
`lines[i - 1]` whenever `1 < i` (the initial dummy is never consulted because
of the `line_no > 1` guard). -/
def tarGo (noop : Bool) : Nat → List Char → List (List Char) → List (List Char)
  | _, _, [] => []
  | i, prev, l :: rest =>
    (if isResHeading l && decide (1 < i) && !(pyStrip prev == resourceTag) && !noop
     then [resourceTag ++ ['\n']] else []) ++ l :: tarGo noop (i + 1) l rest

/-- `test_additional_resources(lines, noop)`. -/
def test_additional_resources (lines : List (List Char)) (noop : Bool) : List (List Char) :=
  tarGo noop 0 [] lines

/-- Formalisation of the claim's wording: the marker is inserted before index
`i` exactly when line `i` is an `Additional resources` heading, `i` is not 0
or 1, and the immediately preceding input line, trimmed, is not already the
resources marker. -/
def resInsertHere (lines : List (List Char)) (i : Nat) : Bool :=
  isResHeading (lines.getD i []) && decide (1 < i) &&
    !(pyStrip (lines.getD (i - 1) []) == resourceTag)

/-- Formalisation of the claim's wording for the whole document: each line is
passed through unchanged, preceded by the marker line where `resInsertHere`
holds, each occurrence judged independently against the input lines. -/
def resSpec (lines : List (List Char)) : List (List Char) :=
  (List.range lines.length).flatMap
    (fun i => (if resInsertHere lines i then [resourceTag ++ ['\n']] else []) ++
      [lines.getD i []])

/-! ## `test_syntax_updates` -/

def sysTok : List Char := ":system-module-type:".toList

def sysTokRepl : List Char := ":_module-type:".toList

/-- `test_syntax_updates(lines, noop)`: the containment test is made on the
stripped line, the replacement on the raw line. -/
def test_syntax_updates (lines : List (List Char)) (noop : Bool) : List (List Char) :=
  lines.map (fun l =>
    if pyContains sysTok (pyStrip l) then
      if !noop then pyReplaceAll sysTok sysTokRepl l else l
    else l)

/-! ## The directory walk of `process` -/

mutual
/-- A directory below the walk root: a name, the plain files it holds, and
its subdirectories. -/
inductive FTree : Type where
  | node (name : List Char) (files : List (List Char)) (subs : FForest)
/-- A list of subdirectories (kept mutual so the walk recursion is
structural). -/
inductive FForest : Type where
  | nil : FForest
  | cons : FTree → FForest → FForest
end

mutual
/-- The `(dirpath, filenames)` pairs `os.walk` yields for one directory whose
parent has path `path`, top-down, paths joined with `/`. -/
def walkTree (path : List Char) : FTree → List (List Char × List (List Char))
  | .node n fs subs => (path ++ '/' :: n, fs) :: walkForest (path ++ '/' :: n) subs
/-- The `(dirpath, filenames)` pairs for a list of sibling directories. -/
def walkForest (path : List Char) : FForest → List (List Char × List (List Char))
  | .nil => []
  | .cons t ts => walkTree path t ++ walkForest path ts
end

/-- `os.walk('.')` over a root holding `files` and subdirectories `subs`:
the root is yielded as `.`, every other directory as `./...`. -/
def osWalk (files : List (List Char)) (subs : FForest) :
    List (List Char × List (List Char)) :=
  (['.'], files) :: walkForest ['.'] subs

/-- The file filter of `process`: name ends in `adoc` and is not
`master.adoc`. -/
def adocSelected (f : List Char) : Bool :=
  pyEndswith (String.toList "adoc") f && !(f == String.toList "master.adoc")

/-- The `(dirpath, filename)` pairs `process` opens and rewrites, given the
walk output: directories whose path starts with `./.` are skipped by
`continue`, and the remaining files are filtered by `adocSelected`. -/
def selectedFiles (walkOut : List (List Char × List (List Char))) :
    List (List Char × List Char) :=
  (walkOut.filter (fun pr => !pyStartswith (String.toList "./.") pr.1)).flatMap
    (fun pr => (pr.2.filter adocSelected).map (fun f => (pr.1, f)))

/-! ## Lemmas about the abstract scan -/

/-- Once `abstract_search_complete` is set, every remaining line is copied
through verbatim and nothing further is recorded. -/
theorem taLoop_done (noop : Bool) (fn : List Char) (hasAbs : Bool) :
    ∀ s, taLoop noop fn hasAbs true s = (s, []) := by
  intro s
  induction s with
  | nil => rfl
  | cons l rest ih =>
    by_cases hl : isPreamble l = true
    · simp [taLoop, hl, ih]
    · simp [taLoop, hl, ih]

/-- Preamble lines are copied through with the loop state unchanged. -/
theorem taLoop_preamble (noop : Bool) (fn : List Char) (hasAbs done : Bool)
    (pre s : List (List Char)) (hp : ∀ p ∈ pre, isPreamble p = true) :
    taLoop noop fn hasAbs done (pre ++ s) =
      (pre ++ (taLoop noop fn hasAbs done s).1, (taLoop noop fn hasAbs done s).2) := by
  induction pre with
  | nil => simp
  | cons a pre ih =>
    have ha : isPreamble a = true := hp a (by simp)
    have ih' := ih (fun p hp' => hp p (by simp [hp']))
    simp [taLoop, ha, ih']

/-- `test_abstract` on a marker-free document that is entirely preamble:
unchanged, nothing recorded, in either mode. -/
theorem test_abstract_allPre (lines : List (List Char)) (noop : Bool) (fn : List Char)
    (hA : hasAbstract lines = false) (hp : ∀ l ∈ lines, isPreamble l = true) :
    test_abstract lines noop fn = (lines, []) := by
  have h := taLoop_preamble noop fn false false lines [] hp
  simp only [List.append_nil] at h
  simp [test_abstract, hA, h, taLoop]

/-- `test_abstract` on a marker-free document whose first non-preamble line
starts with a stop mark: unchanged, the file recorded, in either mode. -/
theorem test_abstract_stop (pre : List (List Char)) (l : List Char)
    (rest : List (List Char)) (noop : Bool) (fn : List Char)
    (hA : hasAbstract (pre ++ l :: rest) = false)
    (hp : ∀ p ∈ pre, isPreamble p = true)
    (hl : isPreamble l = false) (hs : isStop l = true) :
    test_abstract (pre ++ l :: rest) noop fn = (pre ++ l :: rest, [fn]) := by
  simp only [test_abstract, hA, Bool.false_eq_true, if_false]
  rw [taLoop_preamble noop fn false false pre (l :: rest) hp]
  simp [taLoop, hl, hs, taLoop_done]

/-- `test_abstract` in normal mode on a marker-free document whose first
non-preamble line is ordinary prose: the marker line is inserted immediately
before it and nothing is recorded. -/
theorem test_abstract_insert (pre : List (List Char)) (l : List Char)
    (rest : List (List Char)) (fn : List Char)
    (hA : hasAbstract (pre ++ l :: rest) = false)
    (hp : ∀ p ∈ pre, isPreamble p = true)
    (hl : isPreamble l = false) (hs : isStop l = false) :
    test_abstract (pre ++ l :: rest) false fn =
      (pre ++ (abstractTag ++ ['\n']) :: l :: rest, []) := by
  simp only [test_abstract, hA, Bool.false_eq_true, if_false]
  rw [taLoop_preamble false fn false false pre (l :: rest) hp]
  simp [taLoop, hl, hs, taLoop_done]

/-- Every document is either all preamble or splits at a first non-preamble
line. -/
theorem decompPre (lines : List (List Char)) :
    (∀ l ∈ lines, isPreamble l = true) ∨
      ∃ pre l rest, lines = pre ++ l :: rest ∧
        (∀ p ∈ pre, isPreamble p = true) ∧ isPreamble l = false := by
  induction lines with
  | nil => left; simp
  | cons a t ih =>
    by_cases ha : isPreamble a = true
    · rcases ih with h | ⟨pre, l, rest, e, hp, hl⟩
      · left
        intro x hx
        rcases List.mem_cons.mp hx with rfl | hx
        · exact ha
        · exact h x hx
      · right
        refine ⟨a :: pre, l, rest, by simp [e], ?_, hl⟩
        intro p hp'
        rcases List.mem_cons.mp hp' with rfl | hp'
        · exact ha
        · exact hp p hp'
    · right
      exact ⟨[], a, t, rfl, by simp, by simpa using ha⟩

/-- A list starts with itself followed by anything. -/
theorem pyStartswith_append (p x : List Char) : pyStartswith p (p ++ x) = true := by
  induction p with
  | nil => rfl
  | cons a p ih => simp [pyStartswith, ih]

theorem pyContains_of_startswith (pat s : List Char)
    (h : pyStartswith pat s = true) : pyContains pat s = true := by
  cases s with
  | nil => simpa [pyContains] using h
  | cons c cs => simp [pyContains, h]

/-- A pattern occurs in any list that embeds it between two others. -/
theorem pyContains_append (pat a b : List Char) :
    pyContains pat (a ++ pat ++ b) = true := by
  induction a with
  | nil => exact pyContains_of_startswith _ _ (by simpa using pyStartswith_append pat b)
  | cons c a ih =>
    simp only [List.cons_append, pyContains, Bool.or_eq_true]
    right
    simpa [List.append_assoc] using ih

/-- After an insertion the document contains the abstract marker. -/
theorem hasAbstract_of_inserted (pre z : List (List Char)) :
    hasAbstract (pre ++ (abstractTag ++ ['\n']) :: z) = true := by
  unfold hasAbstract
  rw [List.any_eq_true]
  refine ⟨abstractTag ++ ['\n'], by simp, ?_⟩
  have := pyContains_append abstractTag [] ['\n']
  simpa using this

/-! ## Claims C2, C3, C6 -/

/-- C2: for a marker-free document whose lines up to index `k` are all
preamble and whose line at index `k` is ordinary prose (neither preamble nor a
stop mark), `test_abstract` with `noop = false` returns the input with exactly
one marker line inserted immediately before index `k`, and records nothing. -/
theorem claim_abstract_inserted_before_first_prose
    (pre : List (List Char)) (l : List Char) (rest : List (List Char)) (fn : List Char)
    (hA : hasAbstract (pre ++ l :: rest) = false)
    (hp : ∀ p ∈ pre, isPreamble p = true)
    (hl : isPreamble l = false) (hs : isStop l = false) :
    test_abstract (pre ++ l :: rest) false fn =
      (pre ++ (abstractTag ++ ['\n']) :: l :: rest, []) :=
  test_abstract_insert pre l rest fn hA hp hl hs

/-- Witness for C2: the spec's example document. -/
theorem claim_abstract_inserted_before_first_prose_w :
    test_abstract
        (["= Title\n", "\n"].map String.toList ++
          String.toList "This is the intro.\n" :: []) false (String.toList "doc.adoc") =
      (["= Title\n", "\n"].map String.toList ++
        (abstractTag ++ ['\n']) :: String.toList "This is the intro.\n" :: [], []) :=
  claim_abstract_inserted_before_first_prose _ _ _ _
    (by decide) (by decide) (by decide) (by decide)

/-- C3: for a marker-free document whose first non-preamble line starts with a
stop mark (`|`, `*`, `include`, `.`), `test_abstract` returns the input
unchanged and records the file as missing an abstract. -/
theorem claim_stop_line_records_missing
    (pre : List (List Char)) (l : List Char) (rest : List (List Char))
    (noop : Bool) (fn : List Char)
    (hA : hasAbstract (pre ++ l :: rest) = false)
    (hp : ∀ p ∈ pre, isPreamble p = true)
    (hl : isPreamble l = false) (hs : isStop l = true) :
    test_abstract (pre ++ l :: rest) noop fn = (pre ++ l :: rest, [fn]) :=
  test_abstract_stop pre l rest noop fn hA hp hl hs

/-- Witness for C3: the spec's example document. -/
theorem claim_stop_line_records_missing_w :
    test_abstract
        (["[id=\"x\"]\n"].map String.toList ++ String.toList "* first item\n" :: [])
        false (String.toList "doc.adoc") =
      (["[id=\"x\"]\n"].map String.toList ++ String.toList "* first item\n" :: [],
        [String.toList "doc.adoc"]) :=
  claim_stop_line_records_missing _ _ _ _ _
    (by decide) (by decide) (by decide) (by decide)

/-- C6: a marker-free document all of whose lines are preamble (in particular
the empty document) comes back unchanged with nothing recorded, in every
mode. -/
theorem claim_all_preamble_untouched (lines : List (List Char)) (noop : Bool)
    (fn : List Char) (hA : hasAbstract lines = false)
    (hp : ∀ l ∈ lines, isPreamble l = true) :
    test_abstract lines noop fn = (lines, []) :=
  test_abstract_allPre lines noop fn hA hp

/-- Witness for C6: a title line, a blank line and an attribute line. -/
theorem claim_all_preamble_untouched_w :
    test_abstract (["= Title\n", "\n", ":attr: v\n"].map String.toList) true
        (String.toList "doc.adoc") =
      (["= Title\n", "\n", ":attr: v\n"].map String.toList, []) :=
  claim_all_preamble_untouched _ _ _ (by decide) (by decide)

/-! ## Claim C5 -/

/-- C5: a document already containing the marker is returned unchanged with
nothing recorded, and applying `test_abstract` (`noop = false`) twice returns
the same lines as applying it once. -/
theorem claim_test_abstract_idempotent (lines : List (List Char)) (noop : Bool)
    (fn : List Char) :
    (hasAbstract lines = true → test_abstract lines noop fn = (lines, [])) ∧
    (test_abstract (test_abstract lines false fn).1 false fn).1 =
      (test_abstract lines false fn).1 := by
  constructor
  · intro h
    simp [test_abstract, h]
  · by_cases hA : hasAbstract lines = true
    · simp [test_abstract, hA]
    · have hA' : hasAbstract lines = false := by simpa using hA
      rcases decompPre lines with hall | ⟨pre, l, rest, e, hp, hl⟩
      · rw [test_abstract_allPre lines false fn hA' hall]
        rw [test_abstract_allPre lines false fn hA' hall]
      · subst e
        by_cases hs : isStop l = true
        · rw [test_abstract_stop pre l rest false fn hA' hp hl hs]
          rw [test_abstract_stop pre l rest false fn hA' hp hl hs]
        · have hs' : isStop l = false := by simpa using hs
          rw [test_abstract_insert pre l rest fn hA' hp hl hs']
          simp [test_abstract, hasAbstract_of_inserted]

/-- Witness for C5: a stop-mark document run twice, and a document that
already carries the marker. -/
theorem claim_test_abstract_idempotent_w :
    (test_abstract (test_abstract [String.toList "* x\n"] false
          (String.toList "w.adoc")).1 false (String.toList "w.adoc")).1 =
      (test_abstract [String.toList "* x\n"] false (String.toList "w.adoc")).1 ∧
    test_abstract [String.toList "[role=\"_abstract\"]\n"] true
        (String.toList "w.adoc") =
      ([String.toList "[role=\"_abstract\"]\n"], []) :=
  ⟨(claim_test_abstract_idempotent [String.toList "* x\n"] false
      (String.toList "w.adoc")).2,
    (claim_test_abstract_idempotent [String.toList "[role=\"_abstract\"]\n"] true
      (String.toList "w.adoc")).1 (by decide)⟩

/-! ## Claims C1 and C4: the dry-run latch defect -/

/-- C1 (failing input): on `["This is the intro.\n", "* bullet\n"]` a dry run
leaves the lines unchanged but records the file as missing an abstract, while
a normal run records nothing — the findings of the two modes differ because
`abstract_search_complete` is only set when `not noop`. -/
theorem claim_dry_run_findings_diverge :
    (test_abstract (["This is the intro.\n", "* bullet\n"].map String.toList) true
        (String.toList "doc1.adoc")).1 =
      ["This is the intro.\n", "* bullet\n"].map String.toList ∧
    (test_abstract (["This is the intro.\n", "* bullet\n"].map String.toList) true
        (String.toList "doc1.adoc")).2 = [String.toList "doc1.adoc"] ∧
    (test_abstract (["This is the intro.\n", "* bullet\n"].map String.toList) false
        (String.toList "doc1.adoc")).2 = [] := by
  decide

/-- C4 (failing input): in dry-run mode the first line is a decision point
taking the declare-abstract-start branch (neither preamble nor stop mark), yet
the later `*` line still records the document as missing an abstract, because
the decision is not latched when `noop` is set. -/
theorem claim_decision_not_latched_in_dry_run :
    isPreamble (String.toList "An opening paragraph.\n") = false ∧
    isStop (String.toList "An opening paragraph.\n") = false ∧
    (test_abstract (["An opening paragraph.\n", "* item one\n"].map String.toList) true
        (String.toList "doc2.adoc")).2 = [String.toList "doc2.adoc"] := by
  decide

/-! ## Claim C7 -/

/-- The resource-marker loop computes the per-index insertion spec: `prev`
tracks the previous input line and the `line_no > 1` guard shields the dummy
initial value. -/
theorem tarGo_spec (lines : List (List Char)) :
    ∀ (rest : List (List Char)) (i : Nat) (prev : List Char),
      rest = lines.drop i → (1 < i → prev = lines.getD (i - 1) []) →
      tarGo false i prev rest =
        (List.range' i rest.length).flatMap
          (fun j => (if resInsertHere lines j then [resourceTag ++ ['\n']] else []) ++
            [lines.getD j []]) := by
  intro rest
  induction rest with
  | nil => intro i prev _ _; rfl
  | cons l rest ih =>
    intro i prev hdrop hprev
    have hl : lines.getD i [] = l := by
      have h1 : (List.drop i lines).head? = lines[i]? := List.head?_drop lines i
      rw [← hdrop] at h1
      simp only [List.head?_cons] at h1
      simp [List.getD_eq_getElem?_getD, ← h1]
    have hrest : rest = lines.drop (i + 1) := by
      have h2 : List.drop 1 (List.drop i lines) = List.drop (i + 1) lines :=
        List.drop_drop 1 i lines
      rw [← hdrop] at h2
      simpa using h2
    have hc : (isResHeading l && decide (1 < i) && !(pyStrip prev == resourceTag)) =
        resInsertHere lines i := by
      by_cases hi : 1 < i
      · simp only [resInsertHere]
        rw [hl, hprev hi]
      · have hd : decide (1 < i) = false := by simpa using hi
        simp [resInsertHere, hd]
    have ih' := ih (i + 1) l hrest (fun _ => by simpa using hl.symm)
    simp only [tarGo, Bool.not_false, Bool.and_true, hc, ih', List.length_cons,
      List.range'_succ, List.flatMap_cons, hl]
    simp [List.append_assoc]

/-- C7: with `noop = false`, `test_additional_resources` inserts the resources
marker line immediately before each `Additional resources` heading at index
at least 2 whose immediately preceding input line, trimmed, is not already the
marker; every occurrence is judged independently and all other lines pass
through unchanged. -/
theorem claim_additional_resources_spec (lines : List (List Char)) :
    test_additional_resources lines false = resSpec lines := by
  have h := tarGo_spec lines lines 0 [] (by simp)
    (fun h1 => absurd h1 (by decide))
  simpa [test_additional_resources, resSpec, List.range_eq_range'] using h

/-! ## Claim C8 -/

/-- A successful prefix match exhibits the pattern at the front. -/
theorem pyStartswith_exists (pat : List Char) :
    ∀ s, pyStartswith pat s = true → ∃ b, s = pat ++ b := by
  induction pat with
  | nil => exact fun s _ => ⟨s, rfl⟩
  | cons p ps ih =>
    intro s h
    cases s with
    | nil => simp [pyStartswith] at h
    | cons c cs =>
      simp only [pyStartswith, Bool.and_eq_true, beq_iff_eq] at h
      obtain ⟨b, rfl⟩ := ih cs h.2
      exact ⟨b, by simp [h.1]⟩

/-- A successful containment test exhibits the pattern somewhere inside. -/
theorem pyContains_exists (pat : List Char) :
    ∀ s, pyContains pat s = true → ∃ a b, s = a ++ pat ++ b := by
  intro s
  induction s with
  | nil =>
    intro h
    obtain ⟨b, hb⟩ := pyStartswith_exists pat [] (by simpa [pyContains] using h)
    exact ⟨[], b, by simpa using hb⟩
  | cons c cs ih =>
    intro h
    have h' : pyStartswith pat (c :: cs) = true ∨ pyContains pat cs = true := by
      simpa [pyContains] using h
    rcases h' with h1 | h2
    · obtain ⟨b, hb⟩ := pyStartswith_exists pat _ h1
      exact ⟨[], b, by simpa using hb⟩
    · obtain ⟨a, b, rfl⟩ := ih h2
      exact ⟨c :: a, b, by simp⟩

/-- Dropping leading whitespace cannot destroy an occurrence of a pattern
whose first character is not whitespace. -/
theorem dropWhile_keeps_occ (q : Char) (qs : List Char) (hq : pyIsSpace q = false) :
    ∀ (a b : List Char),
      ∃ a2, (a ++ (q :: qs) ++ b).dropWhile pyIsSpace = a2 ++ (q :: qs) ++ b := by
  intro a
  induction a with
  | nil =>
    intro b
    refine ⟨[], ?_⟩
    simp [List.dropWhile_cons, hq]
  | cons c a ih =>
    intro b
    by_cases hc : pyIsSpace c = true
    · obtain ⟨a2, ha2⟩ := ih b
      refine ⟨a2, ?_⟩
      simpa [List.dropWhile_cons, hc] using ha2
    · refine ⟨c :: a, ?_⟩
      simp [List.dropWhile_cons, hc]

/-- `dropWhile` preserves containment of a nonempty, whitespace-free
pattern. -/
theorem dropWhile_keeps (pat s : List Char) (hne : pat ≠ [])
    (hsp : ∀ c ∈ pat, pyIsSpace c = false) (h : pyContains pat s = true) :
    pyContains pat (s.dropWhile pyIsSpace) = true := by
  obtain ⟨a, b, rfl⟩ := pyContains_exists pat s h
  cases pat with
  | nil => exact absurd rfl hne
  | cons q qs =>
    obtain ⟨a2, ha2⟩ := dropWhile_keeps_occ q qs (hsp q (by simp)) a b
    rw [ha2]
    exact pyContains_append _ _ _

/-- Reversal preserves containment (of the reversed pattern). -/
theorem reverse_keeps (pat s : List Char) (h : pyContains pat s = true) :
    pyContains pat.reverse s.reverse = true := by
  obtain ⟨a, b, rfl⟩ := pyContains_exists pat s h
  have he : (a ++ pat ++ b).reverse = b.reverse ++ pat.reverse ++ a.reverse := by
    simp [List.reverse_append, List.append_assoc]
  rw [he]
  exact pyContains_append _ _ _

/-- `strip` preserves containment of a nonempty, whitespace-free pattern, so
testing the stripped line is equivalent to testing the raw line. -/
theorem pyStrip_keeps (pat s : List Char) (hne : pat ≠ [])
    (hsp : ∀ c ∈ pat, pyIsSpace c = false) (h : pyContains pat s = true) :
    pyContains pat (pyStrip s) = true := by
  have h1 := dropWhile_keeps pat s hne hsp h
  have h2 := reverse_keeps pat _ h1
  have h3 := dropWhile_keeps pat.reverse _ (by simpa using hne)
    (fun c hc => hsp c (List.mem_reverse.mp hc)) h2
  have h4 := reverse_keeps pat.reverse _ h3
  simpa [pyStrip] using h4

/-- `replace` leaves a list without any occurrence of the pattern
unchanged. -/
theorem pyReplace_id (p : Char) (ps rep : List Char) :
    ∀ s, pyContains (p :: ps) s = false → pyReplace p ps rep s = s := by
  intro s
  induction s with
  | nil => intro _; simp [pyReplace]
  | cons c cs ih =>
    intro h
    simp only [pyContains, Bool.or_eq_false_iff] at h
    rw [pyReplace, if_neg (by simp [h.1])]
    rw [ih h.2]

theorem pyReplaceAll_id (pat rep s : List Char) (h : pyContains pat s = false) :
    pyReplaceAll pat rep s = s := by
  cases pat with
  | nil => rfl
  | cons p ps => exact pyReplace_id p ps rep s h

/-- C8: with `noop = false`, `test_syntax_updates` replaces every occurrence
of `:system-module-type:` in every line with `:_module-type:` and leaves all
other content verbatim; with `noop = true` it returns the lines unchanged. -/
theorem claim_syntax_updates_replaces_all (lines : List (List Char)) :
    test_syntax_updates lines false =
      lines.map (fun l => pyReplaceAll sysTok sysTokRepl l) ∧
    test_syntax_updates lines true = lines := by
  constructor
  · unfold test_syntax_updates
    refine List.map_congr_left ?_
    intro l _
    by_cases hc : pyContains sysTok (pyStrip l) = true
    · simp [hc]
    · have hc' : pyContains sysTok (pyStrip l) = false := by simpa using hc
      have hnc : pyContains sysTok l = false := by
        by_contra hx
        have hx' : pyContains sysTok l = true := by simpa using hx
        have := pyStrip_keeps sysTok l (by decide) (by decide) hx'
        simp [this] at hc'
      rw [if_neg (by simp [hc'])]
      exact (pyReplaceAll_id sysTok sysTokRepl l hnc).symm
  · simp [test_syntax_updates]

/-! ## Claims C9 and C10 -/

/-- A hidden directory nested below a non-hidden one: `./docs/.hidden`. -/
def exForest : FForest :=
  .cons (.node (String.toList "docs") []
    (.cons (.node (String.toList ".hidden") [String.toList "a.adoc"] .nil) .nil)) .nil

/-- C9 (counterexample): `.hidden` is a directory whose name starts with `.`,
yet the file `a.adoc` inside `./docs/.hidden` is selected for processing —
the `startswith('./.')` test only skips top-level hidden directories, so a
hidden directory nested below a non-hidden one is walked into. -/
theorem claim_hidden_nested_dir_not_skipped :
    pyStartswith ['.'] (String.toList ".hidden") = true ∧
    (String.toList "./docs/.hidden", String.toList "a.adoc") ∈
      selectedFiles (osWalk [] exForest) := by
  decide

/-- C9 (amended): no file whose directory path starts with `./.` — that is,
inside a top-level hidden directory or any of its descendants — is ever
processed. -/
theorem claim_dotslash_dirs_skipped (out : List (List Char × List (List Char)))
    (p f : List Char) (h : (p, f) ∈ selectedFiles out) :
    pyStartswith (String.toList "./.") p = false := by
  simp only [selectedFiles, List.mem_flatMap, List.mem_filter, List.mem_map] at h
  obtain ⟨pr, ⟨_, hns⟩, f', _, heq⟩ := h
  have hp : pr.1 = p := congrArg Prod.fst heq
  rw [← hp]
  simpa using hns

/-- Witness for the amended C9. -/
theorem claim_dotslash_dirs_skipped_w :
    pyStartswith (String.toList "./.") ['.'] = false :=
  claim_dotslash_dirs_skipped [(['.'], [String.toList "x.adoc"])] ['.']
    (String.toList "x.adoc") (by decide)

/-- C10: a file in a visited (non-skipped) directory is selected exactly when
its name ends in the four characters `adoc` and is not `master.adoc`. -/
theorem claim_adoc_selection_iff (out : List (List Char × List (List Char)))
    (p : List Char) (fs : List (List Char)) (f : List Char)
    (hmem : (p, fs) ∈ out)
    (hvis : pyStartswith (String.toList "./.") p = false)
    (hf : f ∈ fs) :
    (p, f) ∈ selectedFiles out ↔
      (pyEndswith (String.toList "adoc") f = true ∧ f ≠ String.toList "master.adoc") := by
  constructor
  · intro h
    simp only [selectedFiles, List.mem_flatMap, List.mem_filter, List.mem_map] at h
    obtain ⟨pr, _, f', ⟨_, hsel⟩, heq⟩ := h
    have hfe : f' = f := congrArg Prod.snd heq
    rw [hfe] at hsel
    simp only [adocSelected, Bool.and_eq_true, Bool.not_eq_true', beq_eq_false_iff_ne]
      at hsel
    exact hsel
  · intro ⟨h1, h2⟩
    simp only [selectedFiles, List.mem_flatMap, List.mem_filter, List.mem_map]
    refine ⟨(p, fs), ⟨hmem, by simpa using hvis⟩, f, ⟨hf, ?_⟩, rfl⟩
    simp only [adocSelected, Bool.and_eq_true, Bool.not_eq_true', beq_eq_false_iff_ne]
    exact ⟨h1, h2⟩

/-- Witness for C10: `notes-adoc` (no dot before `adoc`) is selected. -/
theorem claim_adoc_selection_iff_w :
    (['.'], String.toList "notes-adoc") ∈
      selectedFiles [(['.'], [String.toList "notes-adoc"])] :=
  (claim_adoc_selection_iff [(['.'], [String.toList "notes-adoc"])] ['.']
      [String.toList "notes-adoc"] (String.toList "notes-adoc")
      (by decide) (by decide) (by decide)).mpr (by decide)
